import Mathlib

/-!
Verification of the crawl-and-extract engine of the `scrapper` repository.

The development shallowly embeds the Python sources:
  * `vrm_crawl/spiders/vrm.py` — inline JSON model extraction
    (`extract_inline_model`), slug generation (`generate_property_slug`),
    spider initialization (`__init__`, `_load_states_from_yaml`,
    `start_requests`) and the page callback (`parse`);
  * `vrm_crawl/pipelines.py` — the multi-sheet Excel sink
    (`open_spider`, `process_item`).

Raw markup and JSON text are embedded as `List Char`.  Machine-level
concerns do not arise: all the code is string/list processing.
-/

/-! ## Character classes

`isJsonWs` is the whitespace accepted between tokens by Python's `json`
decoder (its `WHITESPACE` regex is `[ \t\n\r]*`).  `isPySpace` models the
`\s` class of Python's `re` module on `str` patterns (ASCII whitespace
including form feed and vertical tab, plus the Unicode space separators).
-/

def isJsonWs (c : Char) : Bool :=
  c = ' ' || c = '\t' || c = '\n' || c = '\r'

def isPySpace (c : Char) : Bool :=
  c = ' ' || c = '\t' || c = '\n' || c = '\r' ||
  c.toNat = 0x0b || c.toNat = 0x0c ||
  (0x1c ≤ c.toNat && c.toNat ≤ 0x1f) || c.toNat = 0x85 || c.toNat = 0xa0 ||
  c.toNat = 0x1680 || (0x2000 ≤ c.toNat && c.toNat ≤ 0x200a) ||
  c.toNat = 0x2028 || c.toNat = 0x2029 || c.toNat = 0x202f ||
  c.toNat = 0x205f || c.toNat = 0x3000

/-- Drop the leading run of JSON whitespace (the decoder's `_w(s, idx)`). -/
def skipWs : List Char → List Char
  | [] => []
  | c :: cs => if isJsonWs c then skipWs cs else c :: cs

/-- If `p` is a leading segment of `s`, return the remainder of `s`. -/
def stripLit : List Char → List Char → Option (List Char)
  | [], s => some s
  | _ :: _, [] => none
  | p :: ps, c :: cs => if p = c then stripLit ps cs else none

/-! ## JSON values and the `json.loads` parser

`Json` is the parse result of Python's `json.loads`.  Numbers keep their
source lexeme (`NaN`, `Infinity` and `-Infinity` included, which the
default decoder accepts); object members keep source order and possible
duplicate keys (lookups take the last occurrence, as building a Python
`dict` from the scanned pairs does).  A `\uXXXX` escape decodes to its
code point; a lone UTF-16 surrogate, which a Python `str` can hold but a
Lean `Char` cannot, is abstracted by `Char.ofNat`'s fallback — no claim
in this development exercises that corner.
-/

inductive Json where
  | null
  | bool (b : Bool)
  | num (tok : List Char)
  | str (s : List Char)
  | arr (elems : List Json)
  | obj (mems : List (List Char × Json))

def hexVal (c : Char) : Option Nat :=
  if '0' ≤ c ∧ c ≤ '9' then some (c.toNat - 48)
  else if 'a' ≤ c ∧ c ≤ 'f' then some (c.toNat - 87)
  else if 'A' ≤ c ∧ c ≤ 'F' then some (c.toNat - 55)
  else none

def hex4 : List Char → Option (Nat × List Char)
  | a :: b :: c :: d :: rest =>
    match hexVal a, hexVal b, hexVal c, hexVal d with
    | some x, some y, some z, some w => some (((x * 16 + y) * 16 + z) * 16 + w, rest)
    | _, _, _, _ => none
  | _ => none

/-- The short escapes of `py_scanstring`'s `BACKSLASH` table. -/
def escMap : Char → Option Char
  | '"' => some '"'
  | '\\' => some '\\'
  | '/' => some '/'
  | 'b' => some (Char.ofNat 8)
  | 'f' => some (Char.ofNat 12)
  | 'n' => some '\n'
  | 'r' => some '\r'
  | 't' => some '\t'
  | _ => none

/-- Scan a string body after the opening quote, as `py_scanstring` does in
strict mode: raw control characters are rejected, `\uXXXX` escapes decode
to code points and adjacent surrogate escapes pair up. Returns the decoded
content and the text after the closing quote. -/
def scanStr : Nat → List Char → Option (List Char × List Char)
  | 0, _ => none
  | _ + 1, [] => none
  | _ + 1, '"' :: rest => some ([], rest)
  | fuel + 1, '\\' :: rest =>
    match rest with
    | [] => none
    | e :: rest2 =>
      if e = 'u' then
        match hex4 rest2 with
        | none => none
        | some (u, rest3) =>
          if 0xd800 ≤ u ∧ u ≤ 0xdbff then
            match rest3 with
            | '\\' :: 'u' :: rest4 =>
              match hex4 rest4 with
              | some (u2, rest5) =>
                if 0xdc00 ≤ u2 ∧ u2 ≤ 0xdfff then
                  (scanStr fuel rest5).map
                    (fun sr => (Char.ofNat (0x10000 + (u - 0xd800) * 0x400 + (u2 - 0xdc00)) :: sr.1, sr.2))
                else (scanStr fuel rest3).map (fun sr => (Char.ofNat u :: sr.1, sr.2))
              | none => (scanStr fuel rest3).map (fun sr => (Char.ofNat u :: sr.1, sr.2))
            | _ => (scanStr fuel rest3).map (fun sr => (Char.ofNat u :: sr.1, sr.2))
          else (scanStr fuel rest3).map (fun sr => (Char.ofNat u :: sr.1, sr.2))
      else
        match escMap e with
        | some d => (scanStr fuel rest2).map (fun sr => (d :: sr.1, sr.2))
        | none => none
  | fuel + 1, c :: rest =>
    if c.toNat < 0x20 then none
    else (scanStr fuel rest).map (fun sr => (c :: sr.1, sr.2))

/-- Maximal run of decimal digits. -/
def digitRun : List Char → List Char × List Char
  | [] => ([], [])
  | c :: cs =>
    if c.isDigit then
      let dr := digitRun cs
      (c :: dr.1, dr.2)
    else ([], c :: cs)

/-- The integer part of `NUMBER_RE`: `0`, or a nonzero digit followed by
digits (alternation order makes a leading `0` end the integer part). -/
def scanIntPart : List Char → Option (List Char × List Char)
  | '0' :: cs => some (['0'], cs)
  | c :: cs =>
    if '1' ≤ c ∧ c ≤ '9' then
      let dr := digitRun cs
      some (c :: dr.1, dr.2)
    else none
  | [] => none

/-- The optional exponent group `([eE][-+]?\d+)?`; consumed only when the
whole group is present. -/
def scanExp (cs : List Char) : List Char × List Char :=
  match cs with
  | e :: rest =>
    if e = 'e' ∨ e = 'E' then
      match rest with
      | s :: rest2 =>
        if s = '+' ∨ s = '-' then
          match rest2 with
          | d :: rest3 =>
            if d.isDigit then
              let dr := digitRun rest3
              (e :: s :: d :: dr.1, dr.2)
            else ([], cs)
          | [] => ([], cs)
        else if s.isDigit then
          let dr := digitRun rest2
          (e :: s :: dr.1, dr.2)
        else ([], cs)
      | [] => ([], cs)
    else ([], cs)
  | [] => ([], cs)

/-- The optional fraction group `(\.\d+)?`. -/
def scanFrac (cs : List Char) : List Char × List Char :=
  match cs with
  | '.' :: d :: rest =>
    if d.isDigit then
      let dr := digitRun rest
      ('.' :: d :: dr.1, dr.2)
    else ([], cs)
  | _ => ([], cs)

/-- Match `NUMBER_RE` (`(-?(?:0|[1-9]\d*))(\.\d+)?([eE][-+]?\d+)?`) at the
head of the input, returning the matched lexeme. -/
def scanNumber (cs : List Char) : Option (List Char × List Char) :=
  let sp : List Char × List Char :=
    match cs with
    | '-' :: rest => (['-'], rest)
    | _ => ([], cs)
  match scanIntPart sp.2 with
  | none => none
  | some (ip, cs2) =>
    let fr := scanFrac cs2
    let ex := scanExp fr.2
    some (sp.1 ++ ip ++ fr.1 ++ ex.1, ex.2)

mutual

/-- Scan one JSON value at the head of the input (`_scan_once`): strings,
objects, arrays, the three keyword literals, numbers, and the constants
`NaN`, `Infinity`, `-Infinity`. -/
def parseVal : Nat → List Char → Option (Json × List Char)
  | 0, _ => none
  | fuel + 1, cs =>
    match cs with
    | '"' :: rest => (scanStr (rest.length + 1) rest).map (fun sr => (Json.str sr.1, sr.2))
    | '{' :: rest => parseObjRest fuel (skipWs rest)
    | '[' :: rest => parseArrRest fuel (skipWs rest)
    | _ =>
      match stripLit ('n' :: 'u' :: 'l' :: 'l' :: []) cs with
      | some r => some (Json.null, r)
      | none =>
      match stripLit ('t' :: 'r' :: 'u' :: 'e' :: []) cs with
      | some r => some (Json.bool true, r)
      | none =>
      match stripLit ('f' :: 'a' :: 'l' :: 's' :: 'e' :: []) cs with
      | some r => some (Json.bool false, r)
      | none =>
      match scanNumber cs with
      | some (tok, r) => some (Json.num tok, r)
      | none =>
      match stripLit ('N' :: 'a' :: 'N' :: []) cs with
      | some r => some (Json.num ('N' :: 'a' :: 'N' :: []), r)
      | none =>
      match stripLit ('I' :: 'n' :: 'f' :: 'i' :: 'n' :: 'i' :: 't' :: 'y' :: []) cs with
      | some r => some (Json.num ('I' :: 'n' :: 'f' :: 'i' :: 'n' :: 'i' :: 't' :: 'y' :: []), r)
      | none =>
      match stripLit ('-' :: 'I' :: 'n' :: 'f' :: 'i' :: 'n' :: 'i' :: 't' :: 'y' :: []) cs with
      | some r => some (Json.num ('-' :: 'I' :: 'n' :: 'f' :: 'i' :: 'n' :: 'i' :: 't' :: 'y' :: []), r)
      | none => none

/-- Continue an object after `{` with surrounding whitespace skipped. -/
def parseObjRest : Nat → List Char → Option (Json × List Char)
  | 0, _ => none
  | fuel + 1, cs =>
    match cs with
    | '}' :: rest => some (Json.obj [], rest)
    | _ => parseMembers fuel cs []

/-- Scan `"key" : value` members separated by commas until `}`; a member
must start with a double quote, as `JSONObject` demands. -/
def parseMembers : Nat → List Char → List (List Char × Json) → Option (Json × List Char)
  | 0, _, _ => none
  | fuel + 1, cs, acc =>
    match cs with
    | '"' :: rest =>
      match scanStr (rest.length + 1) rest with
      | none => none
      | some (k, r1) =>
        match skipWs r1 with
        | ':' :: r2 =>
          match parseVal fuel (skipWs r2) with
          | none => none
          | some (v, r3) =>
            match skipWs r3 with
            | '}' :: r4 => some (Json.obj (acc ++ [(k, v)]), r4)
            | ',' :: r4 => parseMembers fuel (skipWs r4) (acc ++ [(k, v)])
            | _ => none
        | _ => none
    | _ => none

/-- Continue an array after `[` with surrounding whitespace skipped. -/
def parseArrRest : Nat → List Char → Option (Json × List Char)
  | 0, _ => none
  | fuel + 1, cs =>
    match cs with
    | ']' :: rest => some (Json.arr [], rest)
    | _ => parseElems fuel cs []

/-- Scan array elements separated by commas until `]`. -/
def parseElems : Nat → List Char → List Json → Option (Json × List Char)
  | 0, _, _ => none
  | fuel + 1, cs, acc =>
    match parseVal fuel cs with
    | none => none
    | some (v, r1) =>
      match skipWs r1 with
      | ']' :: r2 => some (Json.arr (acc ++ [v]), r2)
      | ',' :: r2 => parseElems fuel (skipWs r2) (acc ++ [v])
      | _ => none

end

/-- Python's `json.loads`: skip leading whitespace, scan one value, skip
trailing whitespace and demand the end of the input (else "Extra data").
The fuel bound exceeds any possible nesting/member count of the input. -/
def jsonLoads (cs : List Char) : Option Json :=
  match parseVal (cs.length + 16) (skipWs cs) with
  | some (j, rest) => if skipWs rest = [] then some j else none
  | none => none

/-! ## Inline model extraction

`extract_inline_model` runs
`re.search(r"window\.__INITIAL_STATE__\s*=\s*(\x7b.*?\x7d);", html, re.DOTALL)`
and feeds the captured group to `json.loads`, returning `None` when the
pattern is absent or the payload fails to parse.  `re.search` finds the
leftmost position where the whole pattern matches; the lazy `.*?` makes
the capture end at the first following `\x7d;` two-character sequence.
-/

def vrmMarker : List Char := "window.__INITIAL_STATE__".toList

/-- Drop the leading run of `\s` characters (the greedy `\s*` followed by
a non-space literal backtracks to exactly the maximal space run). -/
def skipPy : List Char → List Char :=
  List.dropWhile isPySpace

/-- Shortest body such that the input is `body ++ brace-semicolon ++ rest`:
the lazy `.*?` before the literal closing brace and semicolon. -/
def lazyBody : List Char → Option (List Char)
  | [] => none
  | [_] => none
  | c :: d :: cs =>
    if c = '}' ∧ d = ';' then some []
    else (lazyBody (d :: cs)).map (fun b => c :: b)

/-- Try to match the whole pattern anchored at the head of `s`, returning
the captured group (an opening brace through the matched closing brace). -/
def matchMarkerAt (s : List Char) : Option (List Char) :=
  match stripLit vrmMarker s with
  | none => none
  | some r1 =>
    match skipPy r1 with
    | '=' :: r2 =>
      match skipPy r2 with
      | '{' :: r3 => (lazyBody r3).map (fun b => '{' :: (b ++ ['}']))
      | _ => none
    | _ => none

/-- Leftmost-match search: try the pattern at each position left to right. -/
def reSearchCap : List Char → Option (List Char)
  | [] => none
  | c :: cs =>
    match matchMarkerAt (c :: cs) with
    | some cap => some cap
    | none => reSearchCap cs

/-- The spider's `extract_inline_model`: regex capture then `json.loads`,
with both the no-match case and the `JSONDecodeError` case giving `None`. -/
def extract_inline_model (html : List Char) : Option Json :=
  match reSearchCap html with
  | some cap => jsonLoads cap
  | none => none

/-! ## Slug generation

`generate_property_slug` lower-cases each of name, city, state, replaces
every maximal run outside `[a-z0-9]` with a single hyphen
(`re.sub(r"[^a-z0-9]+", "-", part.lower())`), strips boundary hyphens,
drops parts whose cleaned form is empty, and joins the rest with hyphens.
Lower-casing is modelled with `Char.toLower` (ASCII); Python's `str.lower`
agrees on ASCII input and neither side of the refinement depends on the
behaviour elsewhere.
-/

def isSlugChar (c : Char) : Bool :=
  ('a' ≤ c && c ≤ 'z') || ('0' ≤ c && c ≤ '9')

/-- One pass of `re.sub(r"[^a-z0-9]+", "-", s)`: a maximal run of
non-matching characters becomes a single hyphen; the flag records whether
the previous character was inside such a run. -/
def subRuns : Bool → List Char → List Char
  | _, [] => []
  | prevBad, c :: cs =>
    if isSlugChar c then c :: subRuns false cs
    else if prevBad then subRuns true cs
    else '-' :: subRuns true cs

/-- Python's `.strip("-")`: drop every leading and trailing hyphen. -/
def stripHyph (s : List Char) : List Char :=
  ((s.dropWhile (fun c => c = '-')).reverse.dropWhile (fun c => c = '-')).reverse

def cleanPart (s : List Char) : List Char :=
  stripHyph (subRuns false (s.map Char.toLower))

def slugJoin (parts : List (List Char)) : List Char :=
  List.intercalate ['-'] ((parts.map cleanPart).filter (fun p => !p.isEmpty))

/-- The spider's `generate_property_slug` on strings. -/
def generate_property_slug (name city state : String) : String :=
  ⟨slugJoin [name.toList, city.toList, state.toList]⟩

/-- Fold step collecting maximal `isSlugChar` runs; the flag records
whether the position just to the right starts inside a run. -/
def goodSegsF (c : Char) (st : Bool × List (List Char)) : Bool × List (List Char) :=
  if isSlugChar c then
    match st with
    | (true, seg :: rest) => (true, (c :: seg) :: rest)
    | (_, acc) => (true, [c] :: acc)
  else (false, st.2)

/-- The maximal alphanumeric runs of a string, in order. -/
def goodSegs (s : List Char) : List (List Char) :=
  (s.foldr goodSegsF (false, [])).2

/-- Modelled from the spec's words for one input: lower-case it, replace
every maximal run of characters outside `[a-z0-9]` with a single hyphen
and trim leading/trailing hyphens — equivalently, its maximal
alphanumeric runs joined by single hyphens. -/
def specCleanPart (s : List Char) : List Char :=
  List.intercalate ['-'] (goodSegs (s.map Char.toLower))

/-- Modelled from the spec's words: clean the three inputs independently,
drop those whose cleaned form is empty, join the survivors with hyphens
in the order name, city, state. -/
def specSlug (name city state : String) : String :=
  ⟨List.intercalate ['-']
    ((([name.toList, city.toList, state.toList]).map specCleanPart).filter
      (fun p => !p.isEmpty))⟩

/-! ## Spider initialization

`VrmSpider.__init__` selects states from the command-line argument when
it is truthy (splitting on commas, stripping and upper-casing each
token), else from `_load_states_from_yaml`.  The yaml file is an external
input, abstracted by `YamlData`: unreadable (`open` raises), empty
(`safe_load` gives `None`, so `data.get` raises `AttributeError`), or a
parsed mapping with or without a `states` list.  Upper-casing is modelled
with `Char.toUpper` (ASCII), matching Python's `str.upper` on ASCII.
-/

inductive YamlData where
  | unreadable
  | null
  | dict (states : Option (List String))

/-- The spider's `_load_states_from_yaml`: any exception while opening or
parsing the file or reading the key is caught, logging a warning and
returning the default list; a parsed mapping without a "states" key
returns the default from `data.get("states", ...)` with no warning.
Returns the state list and whether the warning was logged. -/
def loadStatesFromYaml : YamlData → List String × Bool
  | .unreadable => (["VA"], true)
  | .null => (["VA"], true)
  | .dict none => (["VA"], false)
  | .dict (some ss) => (ss, false)

/-- Python's `str.strip()` on characters (whitespace at both ends). -/
def pyStripL (t : List Char) : List Char :=
  ((t.dropWhile isPySpace).reverse.dropWhile isPySpace).reverse

def pyUpperStr (s : String) : String := ⟨s.toList.map Char.toUpper⟩

def pyLowerStr (s : String) : String := ⟨s.toList.map Char.toLower⟩

/-- Python's `str.split(",")`: split at every comma, keeping empty pieces
(the empty string splits to one empty piece). -/
def splitComma : List Char → List (List Char)
  | [] => [[]]
  | c :: cs =>
    match splitComma cs with
    | [] => [[c]]
    | t :: ts => if c = ',' then [] :: t :: ts else (c :: t) :: ts

/-- The `__init__` state selection: a truthy `states` argument (`if
states:` is false for `None` and for the empty string) is split on
commas, each token stripped and upper-cased; else the yaml fallback list
is used verbatim. -/
def vrmInitStates (cli : Option String) (y : YamlData) : List String :=
  match cli with
  | some s =>
    if s.toList.isEmpty then (loadStatesFromYaml y).1
    else (splitComma s.toList).map (fun t => pyUpperStr ⟨pyStripL t⟩)
  | none => (loadStatesFromYaml y).1

structure FetchReq where
  url : String
  metaState : String

/-- The spider's `start_requests`: one request per configured state, the
url built from the lower-cased code and `meta` carrying the code
unchanged (it also zeroes the per-state page counter and reads the page
cap from settings, both modelled as `parsePage` arguments). -/
def start_requests (states : List String) : List FetchReq :=
  states.map (fun st =>
    ⟨"https://www.vacationrentalmanagers.com/" ++ pyLowerStr st, st⟩)

/-! ## The `parse` callback

A `Response` carries the raw markup, the result of the
`response.css("a.next-page::attr(href)").get()` selector (the next-page
reference, an external HTML-parsing boundary modelled as a field), and
the `state` entry of `response.meta`.  `parsePage` is the finite event
sequence the `parse` generator yields for one response.
-/

structure Response where
  text : List Char
  nextPageHref : Option String
  metaState : Option String

/-- Lookup in a scanned member list as a Python `dict` built from the
pairs behaves: the last occurrence of a duplicated key wins. -/
def objGet : List (List Char × Json) → List Char → Option Json
  | [], _ => none
  | (k2, v) :: rest, k =>
    match objGet rest k with
    | some w => some w
    | none => if k2 = k then some v else none

/-- Truthiness of a parsed JSON value as a Python object: `None`, `False`,
empty containers and zero numbers are falsy.  A numeric lexeme is zero
exactly when its mantissa holds no nonzero digit; `NaN` and the
infinities are truthy. -/
def jsonTruthy : Json → Bool
  | .null => false
  | .bool b => b
  | .str s => !s.isEmpty
  | .arr xs => !xs.isEmpty
  | .obj ms => !ms.isEmpty
  | .num tok =>
    ((tok.takeWhile (fun c => !(c = 'e' || c = 'E'))).any
      (fun c => '1' ≤ c && c ≤ '9')) ||
    tok.any (fun c => c = 'N' || c = 'I')

/-- Python's `dict.get` with a default (the extracted model is always a
dict when present, since the capture starts with a brace). -/
def jsonDictGet (j : Json) (k : List Char) (dflt : Json) : Json :=
  match j with
  | .obj ms => (objGet ms k).getD dflt
  | _ => dflt

/-- The sequence `for prop in properties` iterates: lists yield their
elements, dicts their keys (first-occurrence order), strings their
characters; other values raise `TypeError` (`none`). -/
def pyIter : Json → Option (List Json)
  | .arr xs => some xs
  | .obj ms => some (((ms.map Prod.fst).eraseDups).map Json.str)
  | .str s => some (s.map (fun c => Json.str [c]))
  | _ => none

/-- Build one property item as the loop body of `parse` does, keys in the
source's literal order with values defaulting to the empty string; the
slug field is added only when both `name` and `city` are truthy.  Returns
`none` where the Python line raises: `prop.get` on a non-dict, or
`.lower()` inside the slug call on a truthy non-string `name`/`city`. -/
def buildItem (state : String) (p : Json) : Option (List (String × Json)) :=
  match p with
  | .obj ms =>
    let g := fun (k : String) => (objGet ms k.toList).getD (Json.str [])
    let base : List (String × Json) :=
      [("state", Json.str state.toList), ("name", g "name"), ("city", g "city"),
       ("address", g "address"), ("price", g "price"), ("bedrooms", g "bedrooms"),
       ("bathrooms", g "bathrooms"), ("url", g "url")]
    if jsonTruthy (g "name") && jsonTruthy (g "city") then
      match g "name", g "city" with
      | Json.str n, Json.str c =>
        some (base ++ [("slug", Json.str (slugJoin [n, c, state.toList]))])
      | _, _ => none
    else some base
  | _ => none

/-- Run the item loop over the iterated property values; the flag is set
when construction of an element raises, ending the loop there. -/
def buildItems (state : String) : List Json → List (List (String × Json)) × Bool
  | [] => ([], false)
  | p :: ps =>
    match buildItem state p with
    | none => ([], true)
    | some it =>
      let rest := buildItems state ps
      (it :: rest.1, rest.2)

/-- The records phase of `parse`: extract the inline model; when present
and truthy (`if inline_data:`), iterate its `properties` entry (default
empty list) building one item per property.  The flag records whether the
loop raised; an absent or malformed model instead yields no records and
no error. -/
def pageRecords (state : String) (text : List Char) :
    List (List (String × Json)) × Bool :=
  match extract_inline_model text with
  | none => ([], false)
  | some j =>
    if jsonTruthy j then
      match pyIter (jsonDictGet j ("properties".toList) (Json.arr [])) with
      | none => ([], true)
      | some ps => buildItems state ps
    else ([], false)

inductive Event where
  | item (fields : List (String × Json))
  | request (href : String) (state : String)

structure ParseOut where
  events : List Event
  raised : Bool
  capHit : Bool
  newCount : Nat

/-- The spider's `parse` callback for one response, as the finite event
sequence its generator yields: the state tag is read from `meta` (default
"Unknown"), that state's page counter is incremented, all records are
yielded, and only then the cap is checked (`page_count >= max_pages` logs
the cap-reached warning and returns) before at most one follow request
carrying the same state tag is yielded.  An exception in the record loop
ends the generator before the cap check. -/
def parsePage (maxPages pageCount : Nat) (r : Response) : ParseOut :=
  let state := r.metaState.getD "Unknown"
  let n := pageCount + 1
  let recs := pageRecords state r.text
  let evs := recs.1.map Event.item
  if recs.2 then ⟨evs, true, false, n⟩
  else if maxPages ≤ n then ⟨evs, false, true, n⟩
  else
    match r.nextPageHref with
    | some h => ⟨evs ++ [Event.request h state], false, false, n⟩
    | none => ⟨evs, false, false, n⟩

/-- The follow requests among a callback's events, with their state tags. -/
def requestsOf (evs : List Event) : List (String × String) :=
  evs.filterMap (fun e =>
    match e with
    | Event.request h s => some (h, s)
    | _ => none)

/-! ## The Excel sink

A workbook is an ordered list of named sheets; a sheet is its rows, each
a list of cells.  Cell values are modelled as strings — the pipeline
treats them opaquely and the spec's PropertyRecord fields are strings.
-/

abbrev Sheet := List (List String)

abbrev Workbook := List (String × Sheet)

/-- Python's `item.get(key, default)` on the record dict. -/
def itemGet (item : List (String × String)) (k dflt : String) : String :=
  ((item.find? (fun kv => kv.1 = k)).map Prod.snd).getD dflt

/-- Sheet lookup by name (`state in workbook.sheetnames` /
`workbook[state]`; sheet names are unique in a workbook). -/
def wbGet (wb : Workbook) (nm : String) : Option Sheet :=
  (wb.find? (fun s => s.1 = nm)).map Prod.snd

/-- Replace the rows of the named sheet. -/
def wbSet : Workbook → String → Sheet → Workbook
  | [], _, _ => []
  | (nm, sh) :: rest, k, newSh =>
    if nm = k then (nm, newSh) :: rest else (nm, sh) :: wbSet rest k newSh

/-- The data row `[item.get(key, "") for key in item.keys()]`: one value
per key of the record itself, in the record's own key order. -/
def rowOf (item : List (String × String)) : List String :=
  item.map (fun kv => itemGet item kv.1 "")

/-- The sink's `process_item`: route by the record's state; on first
contact create the sheet (appended at the end of the workbook, as
`create_sheet` does) and write its header row from the record's own key
order; then append the data row. -/
def process_item (wb : Workbook) (item : List (String × String)) : Workbook :=
  let st := itemGet item "state" "Unknown"
  match wbGet wb st with
  | none => wb ++ [(st, [item.map Prod.fst, rowOf item])]
  | some sh => wbSet wb st (sh ++ [rowOf item])

/-- The sink's `open_spider`: when today's report file exists it is
loaded with its sheets intact, otherwise the workbook starts empty (the
fresh workbook's default sheet is removed).  The argument stands for the
loaded file at the date-stamped path. -/
def open_spider (existing : Option Workbook) : Workbook :=
  match existing with
  | some wb => wb
  | none => []

/-! ## Proof-support definitions

Executable predicates used to state the claims: substring occurrence (the
presence of the assignment marker or of a brace-semicolon stop inside a
payload), run structure of slug inputs, and alignment of a workbook with
the records that produced it.
-/

/-- Does `p` occur as a leading segment of `s`? -/
def isLead : List Char → List Char → Bool
  | [], _ => true
  | _ :: _, [] => false
  | p :: ps, c :: cs => p = c && isLead ps cs

/-- Does `p` occur as a contiguous segment anywhere in `s`? -/
def containsSeg (p : List Char) : List Char → Bool
  | [] => isLead p []
  | c :: cs => isLead p (c :: cs) || containsSeg p cs

/-- Is the first character an `isSlugChar` character? -/
def headGood : List Char → Bool
  | [] => false
  | c :: _ => isSlugChar c

/-- Is the last character an `isSlugChar` character? -/
def lastGood : List Char → Bool
  | [] => false
  | [c] => isSlugChar c
  | _ :: cs => lastGood cs

/-- Every data row of the sheet has exactly one value per header column. -/
def rowsMatchHeader : Sheet → Bool
  | [] => true
  | hdr :: rows => rows.all (fun r => r.length = hdr.length)

/-- Alignment of a workbook with the record sequence that produced it:
every data row under a sheet's header is the value row of some record of
the sequence routed to that sheet, has exactly one value per header
column, and its value in column `i` is that record's value for the header
field at position `i`. -/
def alignedWB (items : List (List (String × String))) (wb : Workbook) : Prop :=
  ∀ p ∈ wb, ∀ hdr rows, p.2 = hdr :: rows →
    ∀ r ∈ rows, ∃ it ∈ items,
      itemGet it "state" "Unknown" = p.1 ∧ it.map Prod.fst = hdr ∧ r = rowOf it ∧
      r.length = hdr.length ∧
      ∀ i, i < hdr.length → r.get? i = some (itemGet it (hdr.getD i "") "")

/-- Fold invariant for the sink: every sheet is a header row (the key
order of some record of the sequence routed there) followed by data rows
that are value rows of records of the sequence with that key order. -/
def sheetsFrom (items : List (List (String × String))) (wb : Workbook) : Prop :=
  ∀ p ∈ wb, ∃ hdr rows, p.2 = hdr :: rows ∧
    (∃ it ∈ items, itemGet it "state" "Unknown" = p.1 ∧ it.map Prod.fst = hdr) ∧
    ∀ r ∈ rows, ∃ it ∈ items,
      itemGet it "state" "Unknown" = p.1 ∧ it.map Prod.fst = hdr ∧ r = rowOf it

/-- A property record as the spider emits it when name or city is blank:
eight fields, no slug. -/
def c1ItemA : List (String × String) :=
  [("state", "VA"), ("name", "A"), ("city", ""), ("address", "Addr"),
   ("price", "$1"), ("bedrooms", "1"), ("bathrooms", "1"), ("url", "/a")]

/-- A property record as the spider emits it when name and city are both
present: the same eight fields followed by the optional slug. -/
def c1ItemB : List (String × String) :=
  [("state", "VA"), ("name", "B"), ("city", "Derby"), ("address", "Addr2"),
   ("price", "$2"), ("bedrooms", "2"), ("bathrooms", "2"), ("url", "/b"),
   ("slug", "b-derby-va")]

/-- A page whose inline model parses but whose `properties` value is a
number: `for prop in properties` raises `TypeError` before the cap check
and before any follow request. The markup also carries the next-page
anchor the selector field reports. -/
def c2BadResponse : Response :=
  ⟨("<a class=\"next-page\" href=\"/next\"></a><script>window.__INITIAL_STATE__ = \x7b\"properties\": 5\x7d;</script>".toList),
    some "/next", some "VA"⟩

/-- A well-formed page: one property in the inline model and a next-page
anchor reported by the selector field. -/
def c2GoodResponse : Response :=
  ⟨("<script>window.__INITIAL_STATE__ = \x7b\"properties\": [\x7b\"name\": \"A\", \"city\": \"B\"\x7d]\x7d;</script><a class=\"next-page\" href=\"/va?page=2\"></a>".toList),
    some "/va?page=2", some "VA"⟩

/-! ## Helper lemmas -/

theorem char_toNat_ofNat_lt (n : Nat) (h : n < 0xd800) : (Char.ofNat n).toNat = n := by
  unfold Char.ofNat
  rw [dif_pos (Or.inl h)]
  rfl

theorem toUpper_idem (c : Char) : Char.toUpper (Char.toUpper c) = Char.toUpper c := by
  unfold Char.toUpper
  by_cases h : c.toNat ≥ 97 ∧ c.toNat ≤ 122
  · rw [if_pos h]
    have h2 : (Char.ofNat (c.toNat - 32)).toNat = c.toNat - 32 :=
      char_toNat_ofNat_lt _ (by omega)
    rw [if_neg (by omega)]
  · rw [if_neg h, if_neg h]

theorem pyUpperStr_idem (s : String) : pyUpperStr (pyUpperStr s) = pyUpperStr s := by
  unfold pyUpperStr
  have h1 : (String.mk (s.toList.map Char.toUpper)).toList = s.toList.map Char.toUpper := rfl
  rw [h1, List.map_map]
  exact congrArg String.mk (List.map_congr_left (fun c _ => toUpper_idem c))

theorem requestsOf_append (a b : List Event) :
    requestsOf (a ++ b) = requestsOf a ++ requestsOf b := by
  unfold requestsOf
  exact List.filterMap_append a b _

theorem requestsOf_map_item (its : List (List (String × Json))) :
    requestsOf (its.map Event.item) = [] := by
  induction its with
  | nil => rfl
  | cons it rest ih => simp [requestsOf] at ih ⊢

theorem parsePage_of_raised (maxPages pageCount : Nat) (r : Response)
    (h : (pageRecords (r.metaState.getD "Unknown") r.text).2 = true) :
    parsePage maxPages pageCount r =
      ⟨((pageRecords (r.metaState.getD "Unknown") r.text).1).map Event.item,
        true, false, pageCount + 1⟩ := by
  simp only [parsePage, h]
  rfl

theorem parsePage_of_cap (maxPages pageCount : Nat) (r : Response)
    (h : (pageRecords (r.metaState.getD "Unknown") r.text).2 = false)
    (hcap : maxPages ≤ pageCount + 1) :
    parsePage maxPages pageCount r =
      ⟨((pageRecords (r.metaState.getD "Unknown") r.text).1).map Event.item,
        false, true, pageCount + 1⟩ := by
  simp only [parsePage, h, Bool.false_eq_true, if_false, if_pos hcap]

theorem parsePage_of_under (maxPages pageCount : Nat) (r : Response)
    (h : (pageRecords (r.metaState.getD "Unknown") r.text).2 = false)
    (hcap : ¬ maxPages ≤ pageCount + 1) :
    parsePage maxPages pageCount r =
      ⟨((pageRecords (r.metaState.getD "Unknown") r.text).1).map Event.item ++
          (match r.nextPageHref with
           | some h => [Event.request h (r.metaState.getD "Unknown")]
           | none => []),
        false, false, pageCount + 1⟩ := by
  simp only [parsePage, h, Bool.false_eq_true, if_false, if_neg hcap]
  cases r.nextPageHref with
  | some h2 => rfl
  | none => simp

theorem stripLit_isLead (p s r : List Char) (h : stripLit p s = some r) :
    isLead p s = true := by
  induction p generalizing s with
  | nil => rfl
  | cons x xs ih =>
    cases s with
    | nil => exact absurd h (by simp [stripLit])
    | cons c cs =>
      unfold stripLit at h
      by_cases hx : x = c
      · rw [if_pos hx] at h
        simpa [isLead, hx] using ih cs h
      · rw [if_neg hx] at h
        exact absurd h (by simp)

theorem matchMarkerAt_isLead (s cap : List Char) (h : matchMarkerAt s = some cap) :
    isLead vrmMarker s = true := by
  unfold matchMarkerAt at h
  cases hm : stripLit vrmMarker s with
  | none => rw [hm] at h; exact absurd h (by simp)
  | some r => exact stripLit_isLead _ _ _ hm

theorem reSearchCap_none (html : List Char) (h : containsSeg vrmMarker html = false) :
    reSearchCap html = none := by
  induction html with
  | nil => rfl
  | cons c cs ih =>
    unfold containsSeg at h
    rw [Bool.or_eq_false_iff] at h
    unfold reSearchCap
    cases hm : matchMarkerAt (c :: cs) with
    | some cap =>
      rw [matchMarkerAt_isLead _ _ hm] at h
      exact absurd h.1 (by simp)
    | none => exact ih h.2

/-! ## C9 -/

/-- C9 counterexample: when the fallback configuration is readable but its
mapping carries no state list, `data.get("states", ["VA"])` returns the
default silently — the claim's "logs a warning" fails on that case. -/
theorem C9_counterexample :
    loadStatesFromYaml (YamlData.dict none) = (["VA"], false) ∧
    vrmInitStates none (YamlData.dict none) = ["VA"] ∧
    (loadStatesFromYaml (YamlData.dict none)).2 ≠ true :=
  ⟨rfl, rfl, by decide⟩

/-- C9 amended: with no explicit override, initialization never raises and
uses the fallback result; an unreadable or empty configuration recovers
with the ["VA"] default and logs a warning, while a readable mapping
without a state list recovers with the same default but without a
warning. -/
theorem C9_amended_default_recovery :
    (∀ y, vrmInitStates none y = (loadStatesFromYaml y).1) ∧
    loadStatesFromYaml YamlData.unreadable = (["VA"], true) ∧
    loadStatesFromYaml YamlData.null = (["VA"], true) ∧
    loadStatesFromYaml (YamlData.dict none) = (["VA"], false) :=
  ⟨fun _ => rfl, rfl, rfl, rfl⟩

/-! ## C6 -/

/-- C6 counterexample: a lower-case code loaded from the fallback
configuration reaches the fetch requests unchanged — the yaml path never
upper-cases, so "every state code ... is normalized to upper case" fails
on the fallback source. -/
theorem C6_counterexample :
    vrmInitStates none (YamlData.dict (some ["va"])) = ["va"] ∧
    (start_requests (vrmInitStates none (YamlData.dict (some ["va"])))).map
      FetchReq.metaState = ["va"] ∧
    pyUpperStr "va" = "VA" ∧ ("va" : String) ≠ ("VA" : String) :=
  ⟨rfl, rfl, rfl, by decide⟩

/-- C6 amended: only codes supplied through the explicit override are
normalized (each accepted code is upper-case-invariant); codes loaded
from the fallback configuration source are used verbatim, and
`start_requests` tags fetches with the accepted codes unchanged. -/
theorem C6_amended_normalization :
    (∀ s y st, st ∈ vrmInitStates (some s) y → s.toList.isEmpty = false →
      pyUpperStr st = st) ∧
    (∀ ss, vrmInitStates none (YamlData.dict (some ss)) = ss) ∧
    (∀ sts, (start_requests sts).map FetchReq.metaState = sts) := by
  refine ⟨?_, fun _ => rfl, ?_⟩
  · intro s y st hmem hne
    simp only [vrmInitStates, hne, Bool.false_eq_true, if_false] at hmem
    obtain ⟨t, _, rfl⟩ := List.mem_map.mp hmem
    exact pyUpperStr_idem _
  · intro sts
    induction sts with
    | nil => rfl
    | cons a rest ih =>
      simp only [start_requests, List.map_cons] at ih ⊢
      rw [ih]

theorem C6_witness :
    pyUpperStr "VA" = "VA" ∧
    vrmInitStates none (YamlData.dict (some ["TX"])) = ["TX"] :=
  ⟨C6_amended_normalization.1 " va ,tx" YamlData.unreadable "VA" (by decide) (by decide),
    C6_amended_normalization.2.1 ["TX"]⟩

/-! ## C10 -/

/-- C10: the payload after the marker is valid JSON (its only string value
contains the two characters brace-semicolon), yet the lazy capture stops
at that sequence inside the string literal, the truncated text fails to
parse, and the extractor returns the absent result. -/
theorem C10_lazy_capture_truncation :
    jsonLoads ("\x7b\"a\": \"x\x7d;y\"\x7d".toList) =
      some (Json.obj [("a".toList, Json.str ('x' :: '\x7d' :: ';' :: 'y' :: []))]) ∧
    reSearchCap ("window.__INITIAL_STATE__ = \x7b\"a\": \"x\x7d;y\"\x7d;".toList) =
      some ("\x7b\"a\": \"x\x7d".toList) ∧
    jsonLoads ("\x7b\"a\": \"x\x7d".toList) = none ∧
    extract_inline_model ("window.__INITIAL_STATE__ = \x7b\"a\": \"x\x7d;y\"\x7d;".toList) = none :=
  ⟨rfl, rfl, rfl, rfl⟩

theorem wbGet_cons (pn : String) (psh : Sheet) (rest : Workbook) (nm : String) :
    wbGet ((pn, psh) :: rest) nm = if pn = nm then some psh else wbGet rest nm := by
  unfold wbGet
  rw [List.find?_cons]
  by_cases h : pn = nm
  · simp [h]
  · simp [h]

theorem wbGet_wbSet_self (wb : Workbook) (nm : String) (sh newSh : Sheet)
    (h : wbGet wb nm = some sh) : wbGet (wbSet wb nm newSh) nm = some newSh := by
  induction wb with
  | nil => simp [wbGet] at h
  | cons p rest ih =>
    obtain ⟨pn, psh⟩ := p
    rw [wbGet_cons] at h
    by_cases hn : pn = nm
    · simp only [wbSet, if_pos hn]
      rw [wbGet_cons, if_pos hn]
    · rw [if_neg hn] at h
      simp only [wbSet, if_neg hn]
      rw [wbGet_cons, if_neg hn]
      exact ih h

theorem wbGet_wbSet_other (wb : Workbook) (nm other : String) (newSh : Sheet)
    (h : other ≠ nm) : wbGet (wbSet wb nm newSh) other = wbGet wb other := by
  induction wb with
  | nil => rfl
  | cons p rest ih =>
    obtain ⟨pn, psh⟩ := p
    by_cases hn : pn = nm
    · simp only [wbSet, if_pos hn]
      rw [wbGet_cons, wbGet_cons]
      by_cases ho : pn = other
      · exact absurd (ho ▸ hn) h
      · rw [if_neg ho, if_neg ho]
    · simp only [wbSet, if_neg hn]
      rw [wbGet_cons, wbGet_cons]
      by_cases ho : pn = other
      · rw [if_pos ho, if_pos ho]
      · rw [if_neg ho, if_neg ho]
        exact ih

theorem wbSet_names (wb : Workbook) (nm : String) (newSh : Sheet) :
    (wbSet wb nm newSh).map Prod.fst = wb.map Prod.fst := by
  induction wb with
  | nil => rfl
  | cons p rest ih =>
    obtain ⟨pn, psh⟩ := p
    by_cases hn : pn = nm
    · simp [wbSet, hn]
    · simp [wbSet, hn, ih]

/-! ## C8 -/

/-- C8: re-opening a session whose report file exists and writing one
record for a state whose sheet already exists appends exactly one row at
the end of that sheet; the header and all prior rows survive as a prefix,
every other sheet's content is untouched, and the sheet list itself is
unchanged. -/
theorem C8_reopen_append_frame (wb : Workbook) (item : List (String × String)) (sh : Sheet)
    (h : wbGet wb (itemGet item "state" "Unknown") = some sh) :
    wbGet (process_item (open_spider (some wb)) item) (itemGet item "state" "Unknown")
      = some (sh ++ [rowOf item]) ∧
    (∀ nm, nm ≠ itemGet item "state" "Unknown" →
      wbGet (process_item (open_spider (some wb)) item) nm = wbGet wb nm) ∧
    (process_item (open_spider (some wb)) item).map Prod.fst = wb.map Prod.fst := by
  have hop : open_spider (some wb) = wb := rfl
  rw [hop]
  simp only [process_item, h]
  exact ⟨wbGet_wbSet_self _ _ _ _ h, fun nm hnm => wbGet_wbSet_other _ _ _ _ hnm,
    wbSet_names _ _ _⟩

theorem C8_witness :
    wbGet (process_item (open_spider (some [("VA", [["state", "name"], ["VA", "A"]])]))
        [("state", "VA"), ("name", "B")])
      (itemGet [("state", "VA"), ("name", "B")] "state" "Unknown")
      = some ([["state", "name"], ["VA", "A"]] ++ [rowOf [("state", "VA"), ("name", "B")]]) :=
  (C8_reopen_append_frame [("VA", [["state", "name"], ["VA", "A"]])]
    [("state", "VA"), ("name", "B")] [["state", "name"], ["VA", "A"]] rfl).1

/-! ## C2 -/

/-- C2 counterexample: markup with a next-page reference whose inline
model parses but whose `properties` value is a number makes the record
loop raise, so with max_pages = 10 no follow fetch is issued (the claim
demands exactly one) and with max_pages = 1 the cap-reached condition is
never reported. -/
theorem C2_counterexample :
    c2BadResponse.nextPageHref = some "/next" ∧
    (pageRecords "VA" c2BadResponse.text).2 = true ∧
    requestsOf (parsePage 10 0 c2BadResponse).events = [] ∧
    (parsePage 1 0 c2BadResponse).capHit = false :=
  ⟨rfl, rfl, rfl, rfl⟩

/-- C2 amended: provided extraction of the page's records completes
without raising, a first page whose markup carries a next-page reference
issues zero follow fetches and reports the cap with max_pages = 1, and
issues exactly one follow fetch tagged with the same state with
max_pages = 10. -/
theorem C2_amended_pagination (r : Response) (st h : String)
    (hst : r.metaState = some st)
    (hok : (pageRecords st r.text).2 = false)
    (hnext : r.nextPageHref = some h) :
    requestsOf (parsePage 1 0 r).events = [] ∧
    (parsePage 1 0 r).capHit = true ∧
    requestsOf (parsePage 10 0 r).events = [(h, st)] ∧
    (parsePage 10 0 r).capHit = false := by
  have hgd : r.metaState.getD "Unknown" = st := by rw [hst]; rfl
  have hok2 : (pageRecords (r.metaState.getD "Unknown") r.text).2 = false := by
    rw [hgd]; exact hok
  refine ⟨?_, ?_, ?_, ?_⟩
  · rw [parsePage_of_cap 1 0 r hok2 (by omega)]
    exact requestsOf_map_item _
  · rw [parsePage_of_cap 1 0 r hok2 (by omega)]
  · rw [parsePage_of_under 10 0 r hok2 (by omega), hnext]
    rw [requestsOf_append, requestsOf_map_item, hgd]
    rfl
  · rw [parsePage_of_under 10 0 r hok2 (by omega)]

theorem C2_witness :
    requestsOf (parsePage 1 0 c2GoodResponse).events = [] ∧
    (parsePage 1 0 c2GoodResponse).capHit = true ∧
    requestsOf (parsePage 10 0 c2GoodResponse).events = [("/va?page=2", "VA")] ∧
    (parsePage 10 0 c2GoodResponse).capHit = false :=
  C2_amended_pagination c2GoodResponse "VA" "/va?page=2" rfl rfl rfl

/-! ## C7 -/

/-- C7: in every callback's event sequence all of the page's records come
first, in model order, followed by at most one follow request tagged with
the callback's state; no follow request ever precedes a record of the
same page. -/
theorem C7_records_precede_follow (maxPages pageCount : Nat) (r : Response) :
    ∃ tail,
      (parsePage maxPages pageCount r).events =
        ((pageRecords (r.metaState.getD "Unknown") r.text).1).map Event.item ++ tail ∧
      tail.length ≤ 1 ∧
      ∀ e ∈ tail, ∃ h, e = Event.request h (r.metaState.getD "Unknown") := by
  by_cases hr : (pageRecords (r.metaState.getD "Unknown") r.text).2 = true
  · refine ⟨[], ?_, by simp, by simp⟩
    rw [parsePage_of_raised maxPages pageCount r hr]
    simp
  · rw [Bool.not_eq_true] at hr
    by_cases hcap : maxPages ≤ pageCount + 1
    · refine ⟨[], ?_, by simp, by simp⟩
      rw [parsePage_of_cap maxPages pageCount r hr hcap]
      simp
    · cases hn : r.nextPageHref with
      | some h2 =>
        refine ⟨[Event.request h2 (r.metaState.getD "Unknown")], ?_, by simp, ?_⟩
        · rw [parsePage_of_under maxPages pageCount r hr hcap]
          rw [hn]
        · intro e he
          rw [List.mem_singleton] at he
          exact ⟨h2, he⟩
      | none =>
        refine ⟨[], ?_, by simp, by simp⟩
        rw [parsePage_of_under maxPages pageCount r hr hcap, hn]

/-! ## C3 -/

/-- C3: the extractor is total — markup without the marker gives the
absent result, and a captured payload that fails to parse gives the
absent result; in either case the page yields zero records with no error
and pagination proceeds exactly as for any empty page: the cap decision
and the next-page decision are still made. -/
theorem C3_extraction_failures_never_escalate :
    (∀ html : List Char, containsSeg vrmMarker html = false →
      extract_inline_model html = none) ∧
    (∀ html cap, reSearchCap html = some cap → jsonLoads cap = none →
      extract_inline_model html = none) ∧
    (∀ (maxPages pageCount : Nat) (r : Response),
      extract_inline_model r.text = none →
      pageRecords (r.metaState.getD "Unknown") r.text = ([], false) ∧
      parsePage maxPages pageCount r =
        (if maxPages ≤ pageCount + 1 then ⟨[], false, true, pageCount + 1⟩
         else match r.nextPageHref with
           | some h => ⟨[Event.request h (r.metaState.getD "Unknown")],
               false, false, pageCount + 1⟩
           | none => ⟨[], false, false, pageCount + 1⟩)) := by
  refine ⟨?_, ?_, ?_⟩
  · intro html h
    unfold extract_inline_model
    rw [reSearchCap_none html h]
  · intro html cap hs hj
    unfold extract_inline_model
    rw [hs]
    exact hj
  · intro maxPages pageCount r hx
    have hpr : pageRecords (r.metaState.getD "Unknown") r.text = ([], false) := by
      unfold pageRecords
      rw [hx]
    refine ⟨hpr, ?_⟩
    by_cases hcap : maxPages ≤ pageCount + 1
    · rw [parsePage_of_cap maxPages pageCount r (by rw [hpr]) hcap, if_pos hcap, hpr]
      rfl
    · rw [parsePage_of_under maxPages pageCount r (by rw [hpr]) hcap, if_neg hcap, hpr]
      cases r.nextPageHref with
      | some h2 => rfl
      | none => rfl

theorem C3_witness :
    extract_inline_model ("<html><body>No marker</body></html>".toList) = none ∧
    parsePage 10 0 (Response.mk ("<p>nothing</p>".toList) (some "/n") (some "VA")) =
      ⟨[Event.request "/n" "VA"], false, false, 1⟩ := by
  constructor
  · exact C3_extraction_failures_never_escalate.1 _ (by rfl)
  · have h3 := (C3_extraction_failures_never_escalate.2.2 10 0
      (Response.mk ("<p>nothing</p>".toList) (some "/n") (some "VA")) (by rfl)).2
    rw [if_neg (by omega)] at h3
    exact h3

/-! ## C4 -/

theorem stripLit_append_self (p s : List Char) : stripLit p (p ++ s) = some s := by
  induction p with
  | nil => rfl
  | cons x xs ih => simp [stripLit, ih]

theorem skipPy_space_append (ws : List Char) (c : Char) (rest : List Char)
    (hws : ∀ x ∈ ws, isPySpace x = true) (hc : isPySpace c = false) :
    skipPy (ws ++ c :: rest) = c :: rest := by
  induction ws with
  | nil => simp [skipPy, List.dropWhile_cons, hc]
  | cons w wsr ih =>
    have hw := hws w (by simp)
    simp only [List.cons_append, skipPy, List.dropWhile_cons, hw, if_true]
    exact ih (fun x hx => hws x (by simp [hx]))

theorem lazyBody_cons₂ (c d : Char) (cs : List Char) :
    lazyBody (c :: d :: cs) = if c = '}' ∧ d = ';' then some []
      else (lazyBody (d :: cs)).map (fun b => c :: b) := by
  rfl

theorem lazyBody_append (body rest : List Char)
    (hb : containsSeg ('}' :: ';' :: []) body = false) :
    lazyBody (body ++ '}' :: ';' :: rest) = some body := by
  induction body with
  | nil =>
    show lazyBody ('}' :: ';' :: rest) = some []
    rw [lazyBody_cons₂, if_pos ⟨rfl, rfl⟩]
  | cons c cs ih =>
    unfold containsSeg at hb
    rw [Bool.or_eq_false_iff] at hb
    cases cs with
    | nil =>
      show lazyBody (c :: '}' :: ';' :: rest) = some [c]
      rw [lazyBody_cons₂, if_neg (fun hand => absurd hand.2 (by decide))]
      rw [lazyBody_cons₂, if_pos ⟨rfl, rfl⟩]
      rfl
    | cons d ds =>
      have hnot : ¬ (c = '}' ∧ d = ';') := by
        intro hand
        obtain ⟨hc1, hd1⟩ := hand
        subst hc1
        subst hd1
        simp [isLead] at hb
      show lazyBody (c :: ((d :: ds) ++ '}' :: ';' :: rest)) = some (c :: d :: ds)
      rw [List.cons_append, lazyBody_cons₂, if_neg hnot, ← List.cons_append, ih hb.2]
      rfl

theorem matchMarkerAt_build (ws1 ws2 body rest : List Char)
    (h1 : ∀ x ∈ ws1, isPySpace x = true) (h2 : ∀ x ∈ ws2, isPySpace x = true)
    (hb : containsSeg ('}' :: ';' :: []) body = false) :
    matchMarkerAt
        (vrmMarker ++ (ws1 ++ '=' :: (ws2 ++ '{' :: (body ++ '}' :: ';' :: rest))))
      = some ('{' :: (body ++ ['}'])) := by
  unfold matchMarkerAt
  rw [stripLit_append_self]
  simp only [skipPy_space_append ws1 '='
      (ws2 ++ '{' :: (body ++ '}' :: ';' :: rest)) h1 (by decide),
    skipPy_space_append ws2 '{' (body ++ '}' :: ';' :: rest) h2 (by decide),
    lazyBody_append body rest hb, Option.map_some']

theorem reSearchCap_head (s cap : List Char) (h : matchMarkerAt s = some cap) :
    reSearchCap s = some cap := by
  cases s with
  | nil =>
    exfalso
    have hnil : stripLit vrmMarker ([] : List Char) = none := by rfl
    unfold matchMarkerAt at h
    rw [hnil] at h
    exact absurd h (by simp)
  | cons c cs =>
    unfold reSearchCap
    rw [h]

theorem reSearchCap_cons (c : Char) (cs : List Char) :
    reSearchCap (c :: cs) =
      match matchMarkerAt (c :: cs) with
      | some cap => some cap
      | none => reSearchCap cs := rfl

theorem reSearchCap_skip (pre rest : List Char)
    (h : ∀ n, n < pre.length → matchMarkerAt (List.drop n (pre ++ rest)) = none) :
    reSearchCap (pre ++ rest) = reSearchCap rest := by
  induction pre with
  | nil => rfl
  | cons c cs ih =>
    have h0 := h 0 (by simp)
    rw [List.drop_zero, List.cons_append] at h0
    show reSearchCap (c :: (cs ++ rest)) = reSearchCap rest
    rw [reSearchCap_cons, h0]
    exact ih (fun n hn => by
      have hn1 := h (n + 1) (by simpa using Nat.succ_lt_succ hn)
      rw [List.cons_append, List.drop_succ_cons] at hn1
      exact hn1)

/-- C4: markup made of any text without an anchored pattern match, then
the marker, whitespace, an equals sign, whitespace, and a braced JSON
payload (no brace-semicolon inside) closed by the statement terminator,
followed by anything — a later second marker included — extracts exactly
the parsed payload; when that payload's `properties` is a two-element
array, the returned model's `properties` has length two with the elements
in input order, values untouched. -/
theorem C4_first_payload_preserved (pre ws1 ws2 body post : List Char)
    (m p1 p2 : Json)
    (hpre : ∀ n, n < pre.length →
      matchMarkerAt (List.drop n (pre ++
        (vrmMarker ++ (ws1 ++ '=' :: (ws2 ++ '{' :: (body ++ '}' :: ';' :: post))))))
        = none)
    (h1 : ∀ x ∈ ws1, isPySpace x = true) (h2 : ∀ x ∈ ws2, isPySpace x = true)
    (hb : containsSeg ('}' :: ';' :: []) body = false)
    (hjson : jsonLoads ('{' :: (body ++ ['}'])) = some m)
    (hprops : jsonDictGet m ("properties".toList) (Json.arr []) = Json.arr [p1, p2]) :
    extract_inline_model (pre ++
        (vrmMarker ++ (ws1 ++ '=' :: (ws2 ++ '{' :: (body ++ '}' :: ';' :: post)))))
      = some m ∧
    ∃ ps, jsonDictGet m ("properties".toList) (Json.arr []) = Json.arr ps ∧
      ps.length = 2 ∧ ps = [p1, p2] := by
  constructor
  · unfold extract_inline_model
    rw [reSearchCap_skip _ _ hpre,
      reSearchCap_head _ _ (matchMarkerAt_build ws1 ws2 body post h1 h2 hb)]
    exact hjson
  · exact ⟨[p1, p2], hprops, rfl, rfl⟩

theorem C4_witness :
    extract_inline_model ("<script>".toList ++
        (vrmMarker ++ ([' '] ++ '=' :: ([' '] ++ '{' ::
          ("\"properties\": [1, 2]".toList ++ '}' :: ';' ::
            " window.__INITIAL_STATE__ = \x7b\"properties\": []\x7d;".toList)))))
      = some (Json.obj [("properties".toList,
          Json.arr [Json.num ['1'], Json.num ['2']])]) :=
  (C4_first_payload_preserved "<script>".toList [' '] [' ']
    ("\"properties\": [1, 2]".toList)
    (" window.__INITIAL_STATE__ = \x7b\"properties\": []\x7d;".toList)
    (Json.obj [("properties".toList, Json.arr [Json.num ['1'], Json.num ['2']])])
    (Json.num ['1']) (Json.num ['2'])
    (by decide) (by decide) (by decide) (by rfl) (by rfl) (by rfl)).1

/-! ## C5 -/

theorem goodSegsF_fst (c : Char) (st : Bool × List (List Char)) :
    (goodSegsF c st).1 = isSlugChar c := by
  cases h : isSlugChar c with
  | true =>
    obtain ⟨b, acc⟩ := st
    cases b <;> cases acc <;> simp [goodSegsF, h]
  | false => simp [goodSegsF, h]

theorem foldr_goodSegsF_fst (s : List Char) :
    (s.foldr goodSegsF (false, [])).1 = headGood s := by
  cases s with
  | nil => rfl
  | cons c cs =>
    show (goodSegsF c (cs.foldr goodSegsF (false, []))).1 = isSlugChar c
    exact goodSegsF_fst c _

theorem goodSegs_cons_bad (c : Char) (cs : List Char) (h : isSlugChar c = false) :
    goodSegs (c :: cs) = goodSegs cs := by
  unfold goodSegs
  show (goodSegsF c (cs.foldr goodSegsF (false, []))).2 = _
  simp [goodSegsF, h]

theorem goodSegs_nonempty_of_headGood (s : List Char) (h : headGood s = true) :
    ∃ seg rest, goodSegs s = seg :: rest := by
  cases s with
  | nil => exact absurd h (by decide)
  | cons c cs =>
    have hc : isSlugChar c = true := h
    unfold goodSegs
    show ∃ seg rest, (goodSegsF c (cs.foldr goodSegsF (false, []))).2 = seg :: rest
    rcases hfold : cs.foldr goodSegsF (false, []) with ⟨b, acc⟩
    cases b with
    | true =>
      cases acc with
      | nil => exact ⟨[c], [], by simp [goodSegsF, hc]⟩
      | cons a as => exact ⟨c :: a, as, by simp [goodSegsF, hc]⟩
    | false => exact ⟨[c], acc, by simp [goodSegsF, hc]⟩

theorem goodSegs_cons_good_adj (c : Char) (cs : List Char)
    (h : isSlugChar c = true) (hh : headGood cs = true) :
    ∃ seg rest, goodSegs cs = seg :: rest ∧ goodSegs (c :: cs) = (c :: seg) :: rest := by
  obtain ⟨seg, rest, hsr⟩ := goodSegs_nonempty_of_headGood cs hh
  refine ⟨seg, rest, hsr, ?_⟩
  unfold goodSegs at hsr ⊢
  show (goodSegsF c (cs.foldr goodSegsF (false, []))).2 = _
  rcases hfold : cs.foldr goodSegsF (false, []) with ⟨b, acc⟩
  have hb : b = true := by
    have hfst := foldr_goodSegsF_fst cs
    rw [hfold] at hfst
    simp only [] at hfst
    rw [hfst, hh]
  rw [hfold] at hsr
  subst hb
  have hacc : acc = seg :: rest := hsr
  subst hacc
  simp [goodSegsF, h]

theorem goodSegs_cons_good_new (c : Char) (cs : List Char)
    (h : isSlugChar c = true) (hh : headGood cs = false) :
    goodSegs (c :: cs) = [c] :: goodSegs cs := by
  unfold goodSegs
  show (goodSegsF c (cs.foldr goodSegsF (false, []))).2 = _
  rcases hfold : cs.foldr goodSegsF (false, []) with ⟨b, acc⟩
  have hb : b = false := by
    have hfst := foldr_goodSegsF_fst cs
    rw [hfold] at hfst
    simp only [] at hfst
    rw [hfst, hh]
  subst hb
  simp [goodSegsF, h]

theorem lastGood_false_of_goodSegs_nil (s : List Char) (h : goodSegs s = []) :
    lastGood s = false := by
  induction s with
  | nil => rfl
  | cons c cs ih =>
    by_cases hc : isSlugChar c = true
    · exfalso
      obtain ⟨seg, rest, hsr⟩ :=
        goodSegs_nonempty_of_headGood (c :: cs) (show headGood (c :: cs) = true from hc)
      rw [h] at hsr
      exact absurd hsr (by simp)
    · have hc2 : isSlugChar c = false := by
        cases hcv : isSlugChar c
        · rfl
        · exact absurd hcv hc
      rw [goodSegs_cons_bad c cs hc2] at h
      cases cs with
      | nil => exact hc2
      | cons d ds =>
        show lastGood (d :: ds) = false
        exact ih h

theorem intercalate_single (a : List Char) : List.intercalate ['-'] [a] = a := by
  simp [List.intercalate]

theorem intercalate_cons₂ (a b : List Char) (rest : List (List Char)) :
    List.intercalate ['-'] (a :: b :: rest) =
      a ++ ('-' :: List.intercalate ['-'] (b :: rest)) := by
  simp [List.intercalate, List.intersperse]

theorem intercalate_cons_head (c : Char) (seg : List Char) (rest : List (List Char)) :
    List.intercalate ['-'] ((c :: seg) :: rest) =
      c :: List.intercalate ['-'] (seg :: rest) := by
  cases rest with
  | nil => rw [intercalate_single, intercalate_single]
  | cons b bs => rw [intercalate_cons₂, intercalate_cons₂, List.cons_append]

theorem subRuns_cons_good (b : Bool) (c : Char) (cs : List Char)
    (h : isSlugChar c = true) : subRuns b (c :: cs) = c :: subRuns false cs := by
  cases b <;> simp [subRuns, h]

theorem subRuns_cons_bad_false (c : Char) (cs : List Char)
    (h : isSlugChar c = false) : subRuns false (c :: cs) = '-' :: subRuns true cs := by
  simp [subRuns, h]

theorem subRuns_cons_bad_true (c : Char) (cs : List Char)
    (h : isSlugChar c = false) : subRuns true (c :: cs) = subRuns true cs := by
  simp [subRuns, h]

theorem subRuns_decomp (t : List Char) :
    subRuns false t = (if goodSegs t = [] then (if t = [] then ([] : List Char) else ['-'])
      else ((if headGood t = true then ([] : List Char) else ['-']) ++
        (List.intercalate ['-'] (goodSegs t) ++
          (if lastGood t = true then ([] : List Char) else ['-'])))) ∧
    subRuns true t = (if goodSegs t = [] then ([] : List Char)
      else (List.intercalate ['-'] (goodSegs t) ++
        (if lastGood t = true then ([] : List Char) else ['-']))) := by
  induction t with
  | nil => exact ⟨rfl, rfl⟩
  | cons c cs ih =>
    obtain ⟨ihf, iht⟩ := ih
    by_cases hc : isSlugChar c = true
    · have hhg : headGood (c :: cs) = true := hc
      have hcommon : c :: subRuns false cs =
          (List.intercalate ['-'] (goodSegs (c :: cs)) ++
            (if lastGood (c :: cs) = true then ([] : List Char) else ['-'])) := by
        by_cases hh : headGood cs = true
        · obtain ⟨seg, rest, hsr, hgc⟩ := goodSegs_cons_good_adj c cs hc hh
          have hcs_ne : cs ≠ [] := by
            intro hnil
            rw [hnil] at hh
            exact absurd hh (by decide)
          have hlg : lastGood (c :: cs) = lastGood cs := by
            cases cs with
            | nil => exact absurd rfl hcs_ne
            | cons d ds => rfl
          have hne3 : goodSegs cs ≠ [] := by rw [hsr]; simp
          rw [ihf, if_neg hne3, hh, if_pos rfl, hgc, intercalate_cons_head, ← hsr, hlg]
          simp
        · have hh2 : headGood cs = false := by
            cases hv : headGood cs
            · rfl
            · exact absurd hv hh
          rw [goodSegs_cons_good_new c cs hc hh2]
          by_cases hcs : goodSegs cs = []
          · rw [hcs, intercalate_single]
            cases cs with
            | nil =>
              have hlg1 : lastGood [c] = true := hc
              rw [hlg1, if_pos rfl]
              rfl
            | cons d ds =>
              have hlgcs := lastGood_false_of_goodSegs_nil (d :: ds) hcs
              have hlg : lastGood (c :: d :: ds) = lastGood (d :: ds) := rfl
              rw [ihf, if_pos hcs, if_neg (by simp), hlg, hlgcs, if_neg (by simp)]
              rfl
          · have hcs_ne : cs ≠ [] := by
              intro hnil
              rw [hnil] at hcs
              exact absurd rfl hcs
            have hlg : lastGood (c :: cs) = lastGood cs := by
              cases cs with
              | nil => exact absurd rfl hcs_ne
              | cons d ds => rfl
            obtain ⟨seg, rest, hsr⟩ : ∃ seg rest, goodSegs cs = seg :: rest := by
              cases hv : goodSegs cs with
              | nil => exact absurd hv hcs
              | cons a as => exact ⟨a, as, rfl⟩
            rw [ihf, if_neg hcs, hh2, hsr, intercalate_cons₂, hlg]
            simp
      have hne2 : goodSegs (c :: cs) ≠ [] := by
        obtain ⟨seg, rest, hsr⟩ := goodSegs_nonempty_of_headGood (c :: cs) hhg
        rw [hsr]
        simp
      constructor
      · rw [subRuns_cons_good false c cs hc, if_neg hne2, hhg, if_pos rfl, hcommon]
        simp
      · rw [subRuns_cons_good true c cs hc, if_neg hne2, hcommon]
    · have hc2 : isSlugChar c = false := by
        cases hv : isSlugChar c
        · rfl
        · exact absurd hv hc
      have hgb : goodSegs (c :: cs) = goodSegs cs := goodSegs_cons_bad c cs hc2
      have hhg : headGood (c :: cs) = false := hc2
      by_cases hcs : goodSegs cs = []
      · have hTrue : subRuns true (c :: cs) = ([] : List Char) := by
          rw [subRuns_cons_bad_true c cs hc2, iht, if_pos hcs]
        constructor
        · rw [subRuns_cons_bad_false c cs hc2, iht, if_pos hcs, hgb, if_pos hcs]
          rw [if_neg (by simp)]
        · rw [hTrue, hgb, if_pos hcs]
      · have hlg : lastGood (c :: cs) = lastGood cs := by
          cases cs with
          | nil =>
            exfalso
            exact hcs (by rfl)
          | cons d ds => rfl
        have hlead : (if headGood (c :: cs) = true then ([] : List Char) else ['-']) = ['-'] := by
          rw [hhg]
          simp
        constructor
        · rw [subRuns_cons_bad_false c cs hc2, iht, if_neg hcs, hgb, if_neg hcs, hlead, hlg]
          rfl
        · rw [subRuns_cons_bad_true c cs hc2, iht, if_neg hcs, hgb, if_neg hcs, hlg]

theorem bool_not_true (b : Bool) (h : ¬ b = true) : b = false := by
  cases b
  · rfl
  · exact absurd rfl h

theorem stripHyph_front (l m : List Char) (hl : ∀ x ∈ l, x = '-') :
    stripHyph (l ++ m) = stripHyph m := by
  unfold stripHyph
  rw [List.dropWhile_append_of_pos (fun a ha => by rw [hl a ha]; rfl)]

theorem stripHyph_back (m tr : List Char) (htr : ∀ x ∈ tr, x = '-') :
    stripHyph (m ++ tr) = stripHyph m := by
  unfold stripHyph
  rw [List.dropWhile_append]
  by_cases he : (m.dropWhile (fun c => c = '-')).isEmpty = true
  · rw [if_pos he]
    rw [List.isEmpty_iff] at he
    have h1 : tr.dropWhile (fun c => decide (c = '-')) = [] := by
      rw [List.dropWhile_eq_nil_iff]
      intro a ha
      rw [htr a ha]
      rfl
    rw [he, h1]
  · rw [if_neg he]
    rw [List.reverse_append]
    rw [List.dropWhile_append_of_pos
      (fun a ha => by rw [htr a (List.mem_reverse.mp ha)]; rfl)]

theorem stripHyph_id (m : List Char) (x y : Char) (xs ys : List Char)
    (hm : m = x :: xs) (hrev : m.reverse = y :: ys)
    (hx : isSlugChar x = true) (hy : isSlugChar y = true) :
    stripHyph m = m := by
  have hxne : ¬ (decide (x = '-') = true) := by
    simp only [decide_eq_true_eq]
    intro hv
    subst hv
    exact absurd hx (by decide)
  have hyne : ¬ (decide (y = '-') = true) := by
    simp only [decide_eq_true_eq]
    intro hv
    subst hv
    exact absurd hy (by decide)
  unfold stripHyph
  rw [hm]
  simp only [List.dropWhile_cons]
  rw [if_neg hxne, ← hm, hrev]
  simp only [List.dropWhile_cons]
  rw [if_neg hyne, ← hrev, List.reverse_reverse]

theorem goodSegs_chars (s : List Char) :
    ∀ seg ∈ goodSegs s, seg ≠ [] ∧ ∀ x ∈ seg, isSlugChar x = true := by
  induction s with
  | nil =>
    intro seg h
    exact absurd h (by simp [goodSegs])
  | cons c cs ih =>
    by_cases hc : isSlugChar c = true
    · by_cases hh : headGood cs = true
      · obtain ⟨seg0, rest, hsr, hgc⟩ := goodSegs_cons_good_adj c cs hc hh
        rw [hgc]
        intro seg hmem
        rcases List.mem_cons.mp hmem with heq | hmem2
        · subst heq
          have hseg0 := ih seg0 (by rw [hsr]; exact List.mem_cons_self _ _)
          refine ⟨by simp, ?_⟩
          intro x hx
          rcases List.mem_cons.mp hx with heq2 | hx2
          · subst heq2
            exact hc
          · exact hseg0.2 x hx2
        · exact ih seg (by rw [hsr]; exact List.mem_cons_of_mem _ hmem2)
      · rw [goodSegs_cons_good_new c cs hc (bool_not_true _ hh)]
        intro seg hmem
        rcases List.mem_cons.mp hmem with heq | hmem2
        · subst heq
          refine ⟨by simp, ?_⟩
          intro x hx
          rcases List.mem_singleton.mp hx with heq2
          subst heq2
          exact hc
        · exact ih seg hmem2
    · rw [goodSegs_cons_bad c cs (bool_not_true _ hc)]
      exact ih

theorem intercalate_ends (segs : List (List Char)) (hne : segs ≠ [])
    (hsegs : ∀ seg ∈ segs, seg ≠ [] ∧ ∀ x ∈ seg, isSlugChar x = true) :
    ∃ x xs y ys, List.intercalate ['-'] segs = x :: xs ∧
      (List.intercalate ['-'] segs).reverse = y :: ys ∧
      isSlugChar x = true ∧ isSlugChar y = true := by
  induction segs with
  | nil => exact absurd rfl hne
  | cons seg rest ih =>
    obtain ⟨hseg_ne, hseg_good⟩ := hsegs seg (List.mem_cons_self _ _)
    obtain ⟨a, as, ha⟩ : ∃ a as, seg = a :: as := by
      cases seg with
      | nil => exact absurd rfl hseg_ne
      | cons a as => exact ⟨a, as, rfl⟩
    cases rest with
    | nil =>
      obtain ⟨y, ys, hrev⟩ : ∃ y ys, seg.reverse = y :: ys := by
        cases hv : seg.reverse with
        | nil =>
          rw [List.reverse_eq_nil_iff] at hv
          exact absurd hv hseg_ne
        | cons y ys => exact ⟨y, ys, rfl⟩
      refine ⟨a, as, y, ys, ?_, ?_, ?_, ?_⟩
      · rw [intercalate_single, ha]
      · rw [intercalate_single, hrev]
      · exact hseg_good a (by rw [ha]; exact List.mem_cons_self _ _)
      · refine hseg_good y ?_
        rw [← List.mem_reverse, hrev]
        exact List.mem_cons_self _ _
    | cons seg2 rest2 =>
      obtain ⟨x2, xs2, y2, ys2, hx2, hrev2, hgx2, hgy2⟩ :=
        ih (by simp) (fun sg hsg => hsegs sg (List.mem_cons_of_mem _ hsg))
      refine ⟨a, as ++ '-' :: List.intercalate ['-'] (seg2 :: rest2),
        y2, ys2 ++ '-' :: seg.reverse, ?_, ?_, ?_, hgy2⟩
      · rw [intercalate_cons₂, ha]
        rfl
      · rw [intercalate_cons₂, List.reverse_append]
        show (('-' :: List.intercalate ['-'] (seg2 :: rest2)).reverse ++ seg.reverse) = _
        rw [List.reverse_cons, hrev2]
        simp
      · exact hseg_good a (by rw [ha]; exact List.mem_cons_self _ _)

theorem cleanPart_eq_spec (s : List Char) : cleanPart s = specCleanPart s := by
  unfold cleanPart specCleanPart
  by_cases hseg : goodSegs (s.map Char.toLower) = []
  · rw [(subRuns_decomp (s.map Char.toLower)).1, if_pos hseg, hseg]
    by_cases hu : s.map Char.toLower = []
    · rw [if_pos hu]
      rfl
    · rw [if_neg hu]
      rfl
  · rw [(subRuns_decomp (s.map Char.toLower)).1, if_neg hseg]
    obtain ⟨x, xs, y, ys, hx, hrev, hgx, hgy⟩ :=
      intercalate_ends (goodSegs (s.map Char.toLower)) hseg (goodSegs_chars _)
    rw [stripHyph_front _ _ (by split <;> simp)]
    rw [stripHyph_back _ _ (by split <;> simp)]
    exact stripHyph_id _ x y xs ys hx hrev hgx hgy

/-- C5: the spider's slug generator coincides, on all inputs, with the
spec's algorithm (independently lower-case each input, replace every
maximal run outside lowercase alphanumerics by one hyphen, trim boundary
hyphens, drop empty results, join name-city-state with hyphens), and it
produces the three specified examples. -/
theorem C5_slug_refines_spec :
    (∀ name city state : String,
      generate_property_slug name city state = specSlug name city state) ∧
    generate_property_slug "" "Miami" "FL" = "miami-fl" ∧
    generate_property_slug "O\x27Malley\x27s Place!" "St. Louis" "MO" =
      "o-malley-s-place-st-louis-mo" ∧
    generate_property_slug "The   Grand  Villa" "New  York" "NY" =
      "the-grand-villa-new-york-ny" := by
  refine ⟨?_, by rfl, by rfl, by rfl⟩
  intro name city state
  unfold generate_property_slug specSlug slugJoin
  have hfun : cleanPart = specCleanPart := funext cleanPart_eq_spec
  rw [hfun]

/-! ## C1 -/

/-- C1 counterexample: writing an eight-field record (no slug) and then a
nine-field record (with slug) for the same state leaves the sheet with an
eight-column header, an eight-value row and a nine-value row — the second
data row does not have exactly one value per header column, so alignment
does not survive records with a different field set. -/
theorem C1_counterexample :
    ((process_item (process_item [] c1ItemA) c1ItemB).map
      (fun p => (p.1, p.2.map List.length))) = [("VA", [8, 8, 9])] ∧
    (process_item (process_item [] c1ItemA) c1ItemB).all
      (fun p => rowsMatchHeader p.2) = false :=
  ⟨rfl, rfl⟩

theorem mem_wbSet (wb : Workbook) (k : String) (nsh : Sheet) (p : String × Sheet)
    (h : p ∈ wbSet wb k nsh) : p ∈ wb ∨ p = (k, nsh) := by
  induction wb with
  | nil => exact absurd h (by simp [wbSet])
  | cons q rest ih =>
    obtain ⟨qn, qsh⟩ := q
    by_cases hq : qn = k
    · simp only [wbSet, if_pos hq] at h
      rcases List.mem_cons.mp h with heq | hmem
      · right
        rw [heq, hq]
      · left
        exact List.mem_cons_of_mem _ hmem
    · simp only [wbSet, if_neg hq] at h
      rcases List.mem_cons.mp h with heq | hmem
      · left
        rw [heq]
        exact List.mem_cons_self _ _
      · rcases ih hmem with h1 | h2
        · left
          exact List.mem_cons_of_mem _ h1
        · right
          exact h2

theorem wbGet_mem (wb : Workbook) (nm : String) (sh : Sheet)
    (h : wbGet wb nm = some sh) : (nm, sh) ∈ wb := by
  unfold wbGet at h
  cases hf : wb.find? (fun s => s.1 = nm) with
  | none =>
    rw [hf] at h
    exact absurd h (by simp)
  | some q =>
    rw [hf] at h
    obtain ⟨qn, qsh⟩ := q
    have hq : qsh = sh := by simpa using h
    have hp := List.find?_some hf
    have hqn : qn = nm := by simpa using hp
    subst hq
    subst hqn
    exact List.mem_of_find?_eq_some hf

theorem sheetsFrom_step (items : List (List (String × String)))
    (hsame : ∀ it1 ∈ items, ∀ it2 ∈ items,
      itemGet it1 "state" "Unknown" = itemGet it2 "state" "Unknown" →
      it1.map Prod.fst = it2.map Prod.fst)
    (wb : Workbook) (it : List (String × String)) (hit : it ∈ items)
    (hinv : sheetsFrom items wb) : sheetsFrom items (process_item wb it) := by
  intro p hp
  simp only [process_item] at hp
  cases hw : wbGet wb (itemGet it "state" "Unknown") with
  | none =>
    rw [hw] at hp
    rcases List.mem_append.mp hp with hmem | hnew
    · exact hinv p hmem
    · have hpe : p = (itemGet it "state" "Unknown", [it.map Prod.fst, rowOf it]) := by
        simpa using hnew
      refine ⟨it.map Prod.fst, [rowOf it], by rw [hpe], ⟨it, hit, by rw [hpe], rfl⟩, ?_⟩
      intro r hr
      have hre : r = rowOf it := List.mem_singleton.mp hr
      exact ⟨it, hit, by rw [hpe], rfl, hre⟩
  | some sh =>
    rw [hw] at hp
    rcases mem_wbSet wb _ _ p hp with hmem | hpe
    · exact hinv p hmem
    · have hshmem := wbGet_mem wb _ _ hw
      obtain ⟨hdr, rows, hsh, ⟨it0, hit0, hst0, hkeys0⟩, hrows⟩ := hinv _ hshmem
      have hkeys : it.map Prod.fst = hdr := by
        rw [← hkeys0]
        exact hsame it hit it0 hit0 hst0.symm
      refine ⟨hdr, rows ++ [rowOf it], ?_, ⟨it0, hit0, ?_, hkeys0⟩, ?_⟩
      · rw [hpe]
        show sh ++ [rowOf it] = hdr :: (rows ++ [rowOf it])
        rw [show sh = hdr :: rows from hsh]
        rfl
      · rw [hpe]
        exact hst0
      · intro r hr
        rcases List.mem_append.mp hr with hold | hnew2
        · obtain ⟨it2, hit2, h1, h2, h3⟩ := hrows r hold
          exact ⟨it2, hit2, by rw [hpe]; exact h1, h2, h3⟩
        · have hre : r = rowOf it := List.mem_singleton.mp hnew2
          exact ⟨it, hit, by rw [hpe], hkeys, hre⟩

theorem sheetsFrom_fold (items : List (List (String × String)))
    (hsame : ∀ it1 ∈ items, ∀ it2 ∈ items,
      itemGet it1 "state" "Unknown" = itemGet it2 "state" "Unknown" →
      it1.map Prod.fst = it2.map Prod.fst) :
    ∀ (todo : List (List (String × String))), (∀ it ∈ todo, it ∈ items) →
      ∀ wb, sheetsFrom items wb → sheetsFrom items (todo.foldl process_item wb) := by
  intro todo
  induction todo with
  | nil =>
    intro _ wb h
    exact h
  | cons it rest ih =>
    intro hsub wb hwb
    exact ih (fun x hx => hsub x (List.mem_cons_of_mem _ hx))
      (process_item wb it)
      (sheetsFrom_step items hsame wb it (hsub it (List.mem_cons_self _ _)) hwb)

theorem rowOf_get (it : List (String × String)) (i : Nat) (hi : i < it.length) :
    (rowOf it).get? i = some (itemGet it ((it.map Prod.fst).getD i "") "") := by
  unfold rowOf
  rw [List.get?_map]
  cases hv : it.get? i with
  | none =>
    rw [List.get?_eq_none] at hv
    omega
  | some kv =>
    have hk : (it.map Prod.fst).getD i "" = kv.1 := by
      rw [List.getD_eq_get?, List.get?_map, hv]
      rfl
    rw [hk]
    rfl

/-- C1 amended: provided every record written to a state's sheet carries
exactly the sheet's header field sequence (the key order of the first
record written for that state), every data row appended to the sheet has
exactly one value per header column and the value in column i is the
record's value for the header field at position i. -/
theorem C1_amended_alignment (items : List (List (String × String)))
    (hsame : ∀ it1 ∈ items, ∀ it2 ∈ items,
      itemGet it1 "state" "Unknown" = itemGet it2 "state" "Unknown" →
      it1.map Prod.fst = it2.map Prod.fst) :
    alignedWB items (items.foldl process_item []) := by
  have hsf : sheetsFrom items (items.foldl process_item []) :=
    sheetsFrom_fold items hsame items (fun _ hx => hx) []
      (by intro p hp; exact absurd hp (by simp))
  intro p hp hdr rows hrows r hr
  obtain ⟨hdr2, rows2, hsh2, _, hrowsinv⟩ := hsf p hp
  rw [hrows] at hsh2
  injection hsh2 with h1 h2
  obtain ⟨it, hit, hst, hkeys, hrow⟩ := hrowsinv r (by rw [h2] at hr; exact hr)
  rw [← h1] at hkeys
  refine ⟨it, hit, hst, hkeys, hrow, ?_, ?_⟩
  · rw [hrow, ← hkeys]
    simp [rowOf]
  · intro i hi
    rw [hrow, ← hkeys]
    refine rowOf_get it i ?_
    rw [← hkeys] at hi
    simpa using hi

theorem C1_witness :
    alignedWB [c1ItemB, c1ItemB] ([c1ItemB, c1ItemB].foldl process_item []) :=
  C1_amended_alignment [c1ItemB, c1ItemB] (by decide)
